import Mathlib

/-!
Verification of the temperature-monitoring collector (`src/server.c`).

Shallow embedding conventions:
* C `double` values are modelled as exact rationals (`ℚ`); the algorithms
  under study (ring-buffer bookkeeping, sum/min/max scans) are arithmetic
  over the stored values, modelled with exact arithmetic.
* The sample array `double samples[MAX_SAMPLES]` is modelled as a total
  function `ℕ → ℚ`; only indices `< MAX_SAMPLES` are ever produced by the
  code (all writes and reads go through `% MAX_SAMPLES`).
* `int` counters are modelled as `ℕ`: `head` and `count` start at `0` and
  the code only moves them through `% MAX_SAMPLES` respectively a guarded
  increment, so they never leave `[0, MAX_SAMPLES]`.
* Mutexes are dropped: each C critical section becomes one atomic Lean
  function on the state it protects, which is exactly the atomicity the
  lock provides.
-/

set_option maxRecDepth 10000

namespace TempServer

/-- `#define MAX_SAMPLES 1024` (server.c line 20). -/
def MAX_SAMPLES : ℕ := 1024

/-- `#define PERIOD_SECONDS 5` (server.c line 21). -/
def PERIOD_SECONDS : ℕ := 5

/-- The in-server circular buffer `circbuf_t` (server.c lines 39-44),
mutex dropped as explained in the header. -/
structure circbuf_t where
  samples : ℕ → ℚ
  head : ℕ
  count : ℕ

/-- `buffer_init` (server.c lines 50-58): `head = 0`, `count = 0`.  The C
object is a zero-initialised `static`, so the sample array starts at 0. -/
def buffer_init : circbuf_t :=
  { samples := fun _ => 0, head := 0, count := 0 }

/-- `buffer_push` (server.c lines 61-67): write at `head`, advance `head`
modulo `MAX_SAMPLES`, increment `count` unless already at capacity. -/
def buffer_push (b : circbuf_t) (val : ℚ) : circbuf_t :=
  { samples := Function.update b.samples b.head val
    head := (b.head + 1) % MAX_SAMPLES
    count := if b.count < MAX_SAMPLES then b.count + 1 else b.count }

/-- The index read by the stats scan for logical position `i`
(server.c line 84): `(head + MAX_SAMPLES - count + i) % MAX_SAMPLES`.
The C expression is `int` arithmetic; `ℕ` subtraction agrees with it
because `count ≤ MAX_SAMPLES ≤ head + MAX_SAMPLES` in every state the
program constructs. -/
def slotIndex (b : circbuf_t) (i : ℕ) : ℕ :=
  (b.head + MAX_SAMPLES - b.count + i) % MAX_SAMPLES

/-- The slot holding the logical oldest entry: `slotIndex` at `i = 0`,
i.e. where the scan of `buffer_compute_stats` starts (server.c line 84). -/
def oldestSlot (b : circbuf_t) : ℕ := slotIndex b 0

/-- The four values produced by `buffer_compute_stats` through its out
parameters `avg`, `min`, `max`, `count` (server.c line 70). -/
structure AggregateStats where
  avg : ℚ
  minimum : ℚ
  maximum : ℚ
  count : ℕ
deriving DecidableEq

/-- `buffer_compute_stats` (server.c lines 70-94).  Empty buffer: all
zeros.  Otherwise one pass `for i in [0, count)` accumulating
`sum += v`, `if (v < mm) mm = v`, `if (v > Mx) Mx = v`, with `mm` and
`Mx` initialised from `samples[0]` (lines 81-82), and finally
`avg = sum / count`. -/
def buffer_compute_stats (b : circbuf_t) : AggregateStats :=
  if b.count = 0 then
    { avg := 0, minimum := 0, maximum := 0, count := 0 }
  else
    let r := (List.range b.count).foldl
      (fun acc i =>
        let v := b.samples (slotIndex b i)
        (acc.1 + v, if v < acc.2.1 then v else acc.2.1,
          if acc.2.2 < v then v else acc.2.2))
      ((0 : ℚ), b.samples 0, b.samples 0)
    { avg := r.1 / (b.count : ℚ), minimum := r.2.1, maximum := r.2.2,
      count := b.count }

/-- The values the stats scan visits, in chronological order: the buffer's
currently valid entries. -/
def windowList (b : circbuf_t) : List ℚ :=
  (List.range b.count).map (fun i => b.samples (slotIndex b i))

/-- Feeding a whole list of readings through `buffer_push`, oldest first. -/
def pushList (b : circbuf_t) (l : List ℚ) : circbuf_t :=
  l.foldl buffer_push b

/-- The suffix of the push history the window retains: the most recent
`MAX_SAMPLES` values (everything, when fewer were pushed). -/
def retained (l : List ℚ) : List ℚ :=
  l.drop (l.length - MAX_SAMPLES)

/-- The running-minimum fold of the stats scan, seeded with `mm`. -/
def listMin (s : ℚ) (l : List ℚ) : ℚ :=
  l.foldl (fun m v => if v < m then v else m) s

/-- The running-maximum fold of the stats scan, seeded with `Mx`. -/
def listMax (s : ℚ) (l : List ℚ) : ℚ :=
  l.foldl (fun m v => if m < v then v else m) s

/-- Zero-padded three-digit rendering of `n % 1000`, as `%.3f` prints the
fraction digits. -/
def pad3 (n : ℕ) : List Char :=
  if n < 10 then '0' :: '0' :: (Nat.repr n).toList
  else if n < 100 then '0' :: (Nat.repr n).toList
  else (Nat.repr n).toList

/-- Modelled from the spec: the C library `printf`/`snprintf` conversion
`%.3f` used in the reply pattern `ACK: received %.3f from pid %d`
(spec section 6); the C library implementation is not part of this
repository.  The value is rounded to three decimal places and printed
with exactly three fraction digits.  (C rounds the binary double under
the current rounding mode; on values whose thousandfold is an integer —
the only ones evaluated here — no rounding ambiguity arises.) -/
def fmt_f3 (q : ℚ) : List Char :=
  let s : ℤ := round (q * 1000)
  (if s < 0 then ['-'] else []) ++ (Nat.repr (s.natAbs / 1000)).toList
    ++ ['.'] ++ pad3 (s.natAbs % 1000)

/-- The full acknowledgment text `snprintf` formats at server.c line 199:
`"ACK: received %.3f from pid %d"` applied to the temperature and pid. -/
def ack_text (pid : ℤ) (temp : ℚ) : List Char :=
  "ACK: received ".toList ++ fmt_f3 temp ++ " from pid ".toList
    ++ (Int.repr pid).toList

/-- `char reply_msg[128]` — the reply buffer size (server.c line 198). -/
def REPLY_BUF : ℕ := 128

/-- The value `snprintf` returns into `written` (server.c line 199): the
length the fully formatted text would have, excluding the terminating
NUL and regardless of truncation. -/
def reply_written (pid : ℤ) (temp : ℚ) : ℕ :=
  (ack_text pid temp).length

/-- The characters `snprintf` actually stores in `reply_msg`: the text
truncated to 127 characters (a terminating NUL always follows). -/
def reply_stored (pid : ℤ) (temp : ℚ) : List Char :=
  (ack_text pid temp).take (REPLY_BUF - 1)

/-- The byte count the code passes to `MsgReply` (server.c line 200):
`written + 1`. -/
def msg_reply_len (pid : ℤ) (temp : ℚ) : ℕ :=
  reply_written pid temp + 1

/-- The NUL-terminated text `MsgReply` sends out of `reply_msg`: defined
when the passed byte count stays within the 128-byte buffer; `none`
models the out-of-bounds read past `reply_msg` when it does not. -/
def reply_sent (pid : ℤ) (temp : ℚ) : Option (List Char) :=
  if msg_reply_len pid temp ≤ REPLY_BUF then some (reply_stored pid temp)
  else none

/-- The shared-memory record `shared_stats_t` (server.c lines 29-36),
mutex dropped: each C critical section on it is one atomic update. -/
structure shared_stats_t where
  avg : ℚ
  minimum : ℚ
  maximum : ℚ
  count : ℕ
  last_updated : ℤ

/-- One cycle of `timer_thread`'s loop after the sleep (server.c lines
102-113): compute the aggregate and write all four fields plus a fresh
timestamp `now` (the value `time(NULL)` returns then), under the
shared-memory mutex. -/
def timer_cycle (b : circbuf_t) (now : ℤ) : shared_stats_t :=
  { avg := (buffer_compute_stats b).avg
    minimum := (buffer_compute_stats b).minimum
    maximum := (buffer_compute_stats b).maximum
    count := (buffer_compute_stats b).count
    last_updated := now }

/-- The listener's opportunistic shared-memory update on an accepted
reading (server.c lines 192-195): only `last_updated` is assigned. -/
def touch_last_updated (s : shared_stats_t) (now : ℤ) : shared_stats_t :=
  { s with last_updated := now }

/-- The externally visible effects of the main loop's body. -/
inductive ServerEvent where
  | push (v : ℚ)
  | shm_touch
  | reply (pid : ℤ) (v : ℚ)

/-- The order of effects in one accepted-reading iteration of the main
loop (server.c lines 188-200): store the sample (line 189), touch the
shared timestamp (lines 192-195), then reply (line 200). -/
def iteration_events (pid : ℤ) (temp : ℚ) : List ServerEvent :=
  [ServerEvent.push temp, ServerEvent.shm_touch, ServerEvent.reply pid temp]

/-- The request record `temp_msg_t` (server.c lines 23-27). -/
structure temp_msg_t where
  type : ℤ
  pid : ℤ
  temp : ℚ

/-- One iteration of the main receive loop (server.c lines 176-201).
`recv = none` models `MsgReceive` returning `-1` (the failure is logged
with `perror` and the loop runs `continue`).  Components returned: the
buffer, the shared-stats region, the reply issued (pid and temperature
echoed back), and whether the loop continues. -/
def listener_iteration (b : circbuf_t) (s : shared_stats_t)
    (recv : Option temp_msg_t) (now : ℤ) :
    circbuf_t × shared_stats_t × Option (ℤ × ℚ) × Bool :=
  match recv with
  | none => (b, s, none, true)
  | some m =>
    (buffer_push b m.temp, touch_last_updated s now, some (m.pid, m.temp), true)

theorem AggregateStats.ext_mk {s t : AggregateStats}
    (h1 : s.avg = t.avg) (h2 : s.minimum = t.minimum)
    (h3 : s.maximum = t.maximum) (h4 : s.count = t.count) : s = t := by
  cases s; cases t; simp_all

example : (buffer_push buffer_init 5).head = 1 := by decide
example : (buffer_push buffer_init 5).count = 1 := by decide
example : oldestSlot (buffer_push buffer_init 5) = 0 := by decide

lemma pushList_append (b : circbuf_t) (l : List ℚ) (v : ℚ) :
    pushList b (l ++ [v]) = buffer_push (pushList b l) v := by
  simp [pushList, List.foldl_append]

lemma windowList_getElem? (b : circbuf_t) (i : ℕ) :
    (windowList b)[i]? =
      if i < b.count then some (b.samples (slotIndex b i)) else none := by
  rw [windowList, List.getElem?_map]
  by_cases h : i < b.count
  · rw [List.getElem?_range h, if_pos h]
    rfl
  · rw [List.getElem?_eq_none (by simpa using Nat.le_of_not_lt h), if_neg h]
    rfl

/-- The core ring-buffer correctness lemma: after any sequence of pushes
into the initially empty buffer, `head` is the push count modulo the
capacity, `count` caps at the capacity, and the values the stats scan
visits are exactly the most recent `MAX_SAMPLES` pushed values, oldest
first. -/
lemma pushList_spec (l : List ℚ) :
    (pushList buffer_init l).head = l.length % MAX_SAMPLES ∧
    (pushList buffer_init l).count = min l.length MAX_SAMPLES ∧
    windowList (pushList buffer_init l) = retained l := by
  induction l using List.reverseRecOn with
  | nil =>
    refine ⟨rfl, by simp [pushList, buffer_init, MAX_SAMPLES], ?_⟩
    simp [pushList, windowList, buffer_init, retained]
  | append_singleton l v ih =>
    obtain ⟨ih1, ih2, ih3⟩ := ih
    have hM : MAX_SAMPLES = 1024 := rfl
    rw [pushList_append]
    set b := pushList buffer_init l with hb
    have hhead : b.head = l.length % 1024 := by rw [ih1, hM]
    have hcount : b.count = min l.length 1024 := by rw [ih2, hM]
    have hih : ∀ j : ℕ, (windowList b)[j]? = (retained l)[j]? := fun j => by rw [ih3]
    have hlen : (l ++ [v]).length = l.length + 1 := by simp
    have hc' : (buffer_push b v).count = min (l.length + 1) 1024 := by
      show (if b.count < MAX_SAMPLES then b.count + 1 else b.count) = _
      rw [hcount, hM]
      split <;> omega
    have hh' : (buffer_push b v).head = (l.length + 1) % 1024 := by
      show (b.head + 1) % MAX_SAMPLES = _
      rw [hhead, hM]
      omega
    refine ⟨?_, ?_, ?_⟩
    · rw [hh', hlen, hM]
    · rw [hc', hlen, hM]
    · apply List.ext_getElem?
      intro i
      rw [windowList_getElem?, hc']
      have hr : retained (l ++ [v]) = (l ++ [v]).drop (l.length + 1 - 1024) := by
        simp only [retained, hlen, hM]
      rw [hr, List.getElem?_drop]
      have hsl : slotIndex (buffer_push b v) i
          = ((l.length + 1) % 1024 + 1024 - min (l.length + 1) 1024 + i) % 1024 := by
        rw [slotIndex, hh', hc', hM]
      by_cases hi : i < min (l.length + 1) 1024
      · rw [if_pos hi]
        have hupd : (buffer_push b v).samples (slotIndex (buffer_push b v) i)
            = if slotIndex (buffer_push b v) i = b.head then v
              else b.samples (slotIndex (buffer_push b v) i) := by
          show Function.update b.samples b.head v _ = _
          rw [Function.update_apply]
        rcases Nat.lt_or_ge (i + 1) (min (l.length + 1) 1024) with hmid | hlast
        · -- `i` is not the newest logical position: it maps to old logical
          -- position `j` (same position below capacity, shifted by one at it)
          set j := i + (min l.length 1024 + 1 - min (l.length + 1) 1024) with hjdef
          have hSne : ¬ slotIndex (buffer_push b v) i = b.head := by
            rw [hsl, hhead]
            omega
          have h2 : slotIndex (buffer_push b v) i = slotIndex b j := by
            rw [hsl, slotIndex, hhead, hcount, hM]
            omega
          have h1 : (windowList b)[j]? = some (b.samples (slotIndex b j)) := by
            rw [windowList_getElem?, if_pos (by rw [hcount]; omega)]
          have h3 : (retained l)[j]? = l[l.length - 1024 + j]? := by
            simp only [retained, hM]
            rw [List.getElem?_drop]
          have h4 : some (b.samples (slotIndex b j)) = l[l.length - 1024 + j]? := by
            rw [← h1, hih j, h3]
          rw [hupd, if_neg hSne, h2, h4]
          have hidx : l.length + 1 - 1024 + i = l.length - 1024 + j := by omega
          rw [hidx, List.getElem?_append, if_pos (by omega)]
        · -- `i` is the newest logical position: it reads the slot just
          -- written, which holds `v`
          have hS : slotIndex (buffer_push b v) i = b.head := by
            rw [hsl, hhead]
            omega
          rw [hupd, if_pos hS]
          have hidx : l.length + 1 - 1024 + i = l.length := by omega
          rw [hidx, List.getElem?_concat_length]
      · rw [if_neg hi]
        symm
        apply List.getElem?_eq_none
        rw [hlen]
        omega

lemma foldl_triple (l : List ℚ) (a m M : ℚ) :
    l.foldl
      (fun acc v => (acc.1 + v, if v < acc.2.1 then v else acc.2.1,
        if acc.2.2 < v then v else acc.2.2)) (a, m, M)
    = (l.foldl (· + ·) a, listMin m l, listMax M l) := by
  induction l generalizing a m M with
  | nil => rfl
  | cons x xs ihx => simp [listMin, listMax, List.foldl_cons, ihx]

lemma foldl_add_eq (l : List ℚ) (a : ℚ) : l.foldl (· + ·) a = a + l.sum := by
  induction l generalizing a with
  | nil => simp
  | cons x xs ihx => simp [List.foldl_cons, ihx, add_assoc]

lemma listMin_choice (s : ℚ) (l : List ℚ) : listMin s l = s ∨ listMin s l ∈ l := by
  induction l generalizing s with
  | nil => left; rfl
  | cons x xs ihx =>
    rcases ihx (if x < s then x else s) with h | h
    · rw [listMin, List.foldl_cons, ← listMin] at *
      rw [h]
      split
      · right; exact List.mem_cons_self x xs
      · left; rfl
    · right
      rw [listMin, List.foldl_cons, ← listMin]
      exact List.mem_cons_of_mem x h

lemma listMin_le_seed (s : ℚ) (l : List ℚ) : listMin s l ≤ s := by
  induction l generalizing s with
  | nil => exact le_refl s
  | cons x xs ihx =>
    rw [listMin, List.foldl_cons, ← listMin]
    refine le_trans (ihx _) ?_
    split <;> [exact le_of_lt (by assumption); exact le_refl s]

lemma listMin_le_mem (s : ℚ) (l : List ℚ) : ∀ x ∈ l, listMin s l ≤ x := by
  induction l generalizing s with
  | nil => intro x hx; cases hx
  | cons y ys ihy =>
    intro x hx
    rw [listMin, List.foldl_cons, ← listMin]
    rcases List.mem_cons.mp hx with rfl | hmem
    · refine le_trans (listMin_le_seed _ _) ?_
      split
      · exact le_refl x
      · exact le_of_not_lt (by assumption)
    · exact ihy _ x hmem

lemma listMax_choice (s : ℚ) (l : List ℚ) : listMax s l = s ∨ listMax s l ∈ l := by
  induction l generalizing s with
  | nil => left; rfl
  | cons x xs ihx =>
    rcases ihx (if s < x then x else s) with h | h
    · rw [listMax, List.foldl_cons, ← listMax] at *
      rw [h]
      split
      · right; exact List.mem_cons_self x xs
      · left; rfl
    · right
      rw [listMax, List.foldl_cons, ← listMax]
      exact List.mem_cons_of_mem x h

lemma listMax_ge_seed (s : ℚ) (l : List ℚ) : s ≤ listMax s l := by
  induction l generalizing s with
  | nil => exact le_refl s
  | cons x xs ihx =>
    rw [listMax, List.foldl_cons, ← listMax]
    refine le_trans ?_ (ihx _)
    split <;> [exact le_of_lt (by assumption); exact le_refl s]

lemma listMax_ge_mem (s : ℚ) (l : List ℚ) : ∀ x ∈ l, x ≤ listMax s l := by
  induction l generalizing s with
  | nil => intro x hx; cases hx
  | cons y ys ihy =>
    intro x hx
    rw [listMax, List.foldl_cons, ← listMax]
    rcases List.mem_cons.mp hx with rfl | hmem
    · refine le_trans ?_ (listMax_ge_seed _ _)
      split
      · exact le_refl x
      · exact le_of_not_lt (by assumption)
    · exact ihy _ x hmem

/-- `buffer_compute_stats` on a non-empty buffer, decomposed into the
sum, running-minimum and running-maximum folds over the scanned values. -/
lemma compute_stats_pos (b : circbuf_t) (h : b.count ≠ 0) :
    buffer_compute_stats b =
      { avg := (windowList b).sum / (b.count : ℚ)
        minimum := listMin (b.samples 0) (windowList b)
        maximum := listMax (b.samples 0) (windowList b)
        count := b.count } := by
  rw [buffer_compute_stats, if_neg h]
  have hfold : (List.range b.count).foldl
      (fun acc i =>
        let v := b.samples (slotIndex b i)
        (acc.1 + v, if v < acc.2.1 then v else acc.2.1,
          if acc.2.2 < v then v else acc.2.2))
      ((0 : ℚ), b.samples 0, b.samples 0)
      = ((windowList b).foldl (· + ·) 0, listMin (b.samples 0) (windowList b),
          listMax (b.samples 0) (windowList b)) := by
    rw [← foldl_triple (windowList b) 0 (b.samples 0) (b.samples 0),
      windowList, List.foldl_map]
  rw [hfold, foldl_add_eq, zero_add]

lemma listMin_mem (s : ℚ) (l : List ℚ) (hs : s ∈ l) : listMin s l ∈ l := by
  rcases listMin_choice s l with h | h
  · rw [h]; exact hs
  · exact h

lemma listMax_mem (s : ℚ) (l : List ℚ) (hs : s ∈ l) : listMax s l ∈ l := by
  rcases listMax_choice s l with h | h
  · rw [h]; exact hs
  · exact h

/-- In every reachable non-empty buffer state, physical slot 0 is one of
the currently valid entries (before wrap-around the window starts at slot
0; after wrap-around all slots are valid).  This is what makes the C
seeding `mm = Mx = samples[0]` (server.c lines 81-82) harmless. -/
lemma samples0_mem (l : List ℚ) (h : l ≠ []) :
    (pushList buffer_init l).samples 0 ∈ windowList (pushList buffer_init l) := by
  obtain ⟨h1, h2, -⟩ := pushList_spec l
  have hM : MAX_SAMPLES = 1024 := rfl
  rw [hM] at h1 h2
  have hlen : 1 ≤ l.length := List.length_pos.mpr h
  set b := pushList buffer_init l with hb
  set i := (b.count + 1024 - b.head) % 1024 with hi
  have hic : i < b.count := by rw [hi, h1, h2]; omega
  have hsl : slotIndex b i = 0 := by
    rw [slotIndex, hM, hi, h1, h2]
    omega
  have hsome : (windowList b)[i]? = some (b.samples 0) := by
    rw [windowList_getElem?, if_pos hic, hsl]
  exact List.getElem?_mem hsome

lemma retained_length (l : List ℚ) :
    (retained l).length = min l.length MAX_SAMPLES := by
  simp only [retained, List.length_drop, MAX_SAMPLES]
  omega

lemma retained_ne_nil (l : List ℚ) (h : l ≠ []) : retained l ≠ [] := by
  have h1 : 1 ≤ l.length := List.length_pos.mpr h
  have h2 := retained_length l
  intro hc
  rw [hc] at h2
  simp only [List.length_nil, MAX_SAMPLES] at h2
  omega

/-- Aggregate characterization for every non-empty reachable buffer: the
count is the retained length, the average is the exact mean of the
retained values, and the reported minimum/maximum are retained values
bounding all retained values. -/
lemma stats_spec_nonempty (l : List ℚ) (h : l ≠ []) :
    (buffer_compute_stats (pushList buffer_init l)).count = (retained l).length ∧
    (buffer_compute_stats (pushList buffer_init l)).avg
      = (retained l).sum / ((retained l).length : ℚ) ∧
    (buffer_compute_stats (pushList buffer_init l)).minimum ∈ retained l ∧
    (∀ x ∈ retained l, (buffer_compute_stats (pushList buffer_init l)).minimum ≤ x) ∧
    (buffer_compute_stats (pushList buffer_init l)).maximum ∈ retained l ∧
    (∀ x ∈ retained l, x ≤ (buffer_compute_stats (pushList buffer_init l)).maximum) := by
  have hcnt : (pushList buffer_init l).count = min l.length MAX_SAMPLES :=
    (pushList_spec l).2.1
  have hwin : windowList (pushList buffer_init l) = retained l :=
    (pushList_spec l).2.2
  have hlen : 1 ≤ l.length := List.length_pos.mpr h
  have hne : (pushList buffer_init l).count ≠ 0 := by
    rw [hcnt]
    simp only [MAX_SAMPLES]
    omega
  have hs := compute_stats_pos _ hne
  have hmem := samples0_mem l h
  rw [hwin] at hmem
  rw [hs]
  refine ⟨by rw [hcnt, retained_length], by rw [hwin, hcnt, retained_length], ?_, ?_, ?_, ?_⟩
  · show listMin ((pushList buffer_init l).samples 0)
        (windowList (pushList buffer_init l)) ∈ retained l
    rw [hwin]
    exact listMin_mem _ _ hmem
  · intro x hx
    show listMin ((pushList buffer_init l).samples 0)
        (windowList (pushList buffer_init l)) ≤ x
    rw [hwin]
    exact listMin_le_mem _ _ x hx
  · show listMax ((pushList buffer_init l).samples 0)
        (windowList (pushList buffer_init l)) ∈ retained l
    rw [hwin]
    exact listMax_mem _ _ hmem
  · intro x hx
    show x ≤ listMax ((pushList buffer_init l).samples 0)
        (windowList (pushList buffer_init l))
    rw [hwin]
    exact listMax_ge_mem _ _ x hx

lemma retained_eq_self (l : List ℚ) (h : l.length ≤ MAX_SAMPLES) : retained l = l := by
  simp only [retained]
  rw [show l.length - MAX_SAMPLES = 0 from by omega, List.drop_zero]

lemma mul_length_le_sum (L : List ℚ) (m : ℚ) (hm : ∀ x ∈ L, m ≤ x) :
    m * (L.length : ℚ) ≤ L.sum := by
  induction L with
  | nil => simp
  | cons x xs ih =>
    have hx := hm x (List.mem_cons_self x xs)
    have hxs := ih fun y hy => hm y (List.mem_cons_of_mem x hy)
    simp only [List.sum_cons, List.length_cons]
    push_cast
    linarith

lemma sum_le_mul_length (L : List ℚ) (m : ℚ) (hm : ∀ x ∈ L, x ≤ m) :
    L.sum ≤ m * (L.length : ℚ) := by
  induction L with
  | nil => simp
  | cons x xs ih =>
    have hx := hm x (List.mem_cons_self x xs)
    have hxs := ih fun y hy => hm y (List.mem_cons_of_mem x hy)
    simp only [List.sum_cons, List.length_cons]
    push_cast
    linarith

/-- C1.  For every sequence of `N ≤ 1024` pushes into the initially empty
window, `buffer_compute_stats` returns the exact count, the exact average,
a minimum that is an element of and a lower bound for the pushed values,
and a maximum that is an element of and an upper bound for them; pushing
any permutation of the same values yields the same aggregate; and zero
pushes yield the all-zero aggregate. -/
theorem C1_computeAggregate_exact (l : List ℚ) (h : l.length ≤ MAX_SAMPLES) :
    (buffer_compute_stats (pushList buffer_init l)).count = l.length ∧
    (buffer_compute_stats (pushList buffer_init l)).avg = l.sum / (l.length : ℚ) ∧
    (l = [] → buffer_compute_stats (pushList buffer_init l)
      = { avg := 0, minimum := 0, maximum := 0, count := 0 }) ∧
    (l ≠ [] →
      (buffer_compute_stats (pushList buffer_init l)).minimum ∈ l ∧
      (∀ x ∈ l, (buffer_compute_stats (pushList buffer_init l)).minimum ≤ x) ∧
      (buffer_compute_stats (pushList buffer_init l)).maximum ∈ l ∧
      (∀ x ∈ l, x ≤ (buffer_compute_stats (pushList buffer_init l)).maximum)) ∧
    (∀ l' : List ℚ, l.Perm l' →
      buffer_compute_stats (pushList buffer_init l')
        = buffer_compute_stats (pushList buffer_init l)) := by
  by_cases hemp : l = []
  · subst hemp
    refine ⟨rfl,
      by simp [show buffer_compute_stats (pushList buffer_init ([] : List ℚ))
        = { avg := 0, minimum := 0, maximum := 0, count := 0 } from rfl],
      fun _ => rfl, fun hne => absurd rfl hne, ?_⟩
    intro l' hp
    have : l' = [] := by
      have hl := hp.length_eq
      simp only [List.length_nil] at hl
      exact List.length_eq_zero.mp hl.symm
    rw [this]
  · obtain ⟨hcnt, havg, hminmem, hminle, hmaxmem, hmaxle⟩ := stats_spec_nonempty l hemp
    have hr : retained l = l := retained_eq_self l h
    rw [hr] at hcnt havg hminmem hminle hmaxmem hmaxle
    refine ⟨hcnt, havg, fun hc => absurd hc hemp,
      fun _ => ⟨hminmem, hminle, hmaxmem, hmaxle⟩, ?_⟩
    intro l' hp
    have hemp' : l' ≠ [] := by
      intro hc
      exact hemp (List.Perm.eq_nil (hc ▸ hp))
    have h' : l'.length ≤ MAX_SAMPLES := hp.length_eq ▸ h
    obtain ⟨hcnt', havg', hminmem', hminle', hmaxmem', hmaxle'⟩ := stats_spec_nonempty l' hemp'
    have hr' : retained l' = l' := retained_eq_self l' h'
    rw [hr'] at hcnt' havg' hminmem' hminle' hmaxmem' hmaxle'
    refine AggregateStats.ext_mk ?_ ?_ ?_ ?_
    · rw [havg, havg', hp.sum_eq, hp.length_eq]
    · exact le_antisymm (hminle' _ (hp.mem_iff.mp hminmem)) (hminle _ (hp.mem_iff.mpr hminmem'))
    · exact le_antisymm (hmaxle _ (hp.mem_iff.mpr hmaxmem')) (hmaxle' _ (hp.mem_iff.mp hmaxmem))
    · rw [hcnt, hcnt', hp.length_eq]

theorem C1_witness :
    (buffer_compute_stats (pushList buffer_init [20, 25, 30])).count = 3 :=
  (C1_computeAggregate_exact [20, 25, 30] (by decide)).1

/-- C2.  For every sequence of `N > 1024` pushes, the aggregate reflects
exactly the most recent 1024 values (`retained l`, i.e. the values that
survive FIFO eviction of the oldest), and the count equals the
capacity. -/
theorem C2_fifo_eviction (l : List ℚ) (h : MAX_SAMPLES < l.length) :
    (buffer_compute_stats (pushList buffer_init l)).count = MAX_SAMPLES ∧
    (buffer_compute_stats (pushList buffer_init l)).avg
      = (retained l).sum / (MAX_SAMPLES : ℚ) ∧
    (buffer_compute_stats (pushList buffer_init l)).minimum ∈ retained l ∧
    (∀ x ∈ retained l, (buffer_compute_stats (pushList buffer_init l)).minimum ≤ x) ∧
    (buffer_compute_stats (pushList buffer_init l)).maximum ∈ retained l ∧
    (∀ x ∈ retained l, x ≤ (buffer_compute_stats (pushList buffer_init l)).maximum) := by
  have hemp : l ≠ [] := by
    intro hc
    rw [hc] at h
    simp only [List.length_nil] at h
    omega
  obtain ⟨hcnt, havg, hminmem, hminle, hmaxmem, hmaxle⟩ := stats_spec_nonempty l hemp
  have hlen : (retained l).length = MAX_SAMPLES := by
    rw [retained_length]
    omega
  rw [hlen] at hcnt havg
  exact ⟨hcnt, havg, hminmem, hminle, hmaxmem, hmaxle⟩

theorem C2_witness :
    (buffer_compute_stats (pushList buffer_init (List.replicate 1025 0))).count
      = MAX_SAMPLES :=
  (C2_fifo_eviction (List.replicate 1025 0)
    (by rw [List.length_replicate]; decide)).1

/-- C4, counterexample.  After a single push the buffer's logical oldest
element sits in slot 0 (that is where the stats scan starts), but the
position "`capacity` slots behind the next-write position modulo
capacity" is slot 1: the claimed invariant fails on this reachable,
partially-filled state. -/
theorem C4_counterexample :
    0 < (buffer_push buffer_init 5).count ∧
    oldestSlot (buffer_push buffer_init 5)
      ≠ ((buffer_push buffer_init 5).head + MAX_SAMPLES - MAX_SAMPLES) % MAX_SAMPLES := by
  decide

/-- C4, amended.  In every reachable state `0 ≤ count ≤ capacity`, and the
logical oldest element is `count` slots behind the next-write position
modulo capacity (advancing `count` slots from it, modulo the capacity,
lands on the next-write position).  When the window is full
(`count = capacity`) this coincides with being `capacity` slots behind. -/
theorem C4_amended_invariant (l : List ℚ) :
    (pushList buffer_init l).count ≤ MAX_SAMPLES ∧
    (oldestSlot (pushList buffer_init l) + (pushList buffer_init l).count) % MAX_SAMPLES
      = (pushList buffer_init l).head := by
  obtain ⟨h1, h2, -⟩ := pushList_spec l
  have hM : MAX_SAMPLES = 1024 := rfl
  constructor
  · rw [h2]
    omega
  · rw [oldestSlot, slotIndex, h1, h2, hM]
    omega

/-- C10.  For every non-empty reachable window state, the aggregate
satisfies `minimum ≤ average ≤ maximum`, and the reported minimum and
maximum are values actually present among the retained entries. -/
theorem C10_min_avg_max (l : List ℚ) (h : l ≠ []) :
    (buffer_compute_stats (pushList buffer_init l)).minimum
      ≤ (buffer_compute_stats (pushList buffer_init l)).avg ∧
    (buffer_compute_stats (pushList buffer_init l)).avg
      ≤ (buffer_compute_stats (pushList buffer_init l)).maximum ∧
    (buffer_compute_stats (pushList buffer_init l)).minimum
      ∈ windowList (pushList buffer_init l) ∧
    (buffer_compute_stats (pushList buffer_init l)).maximum
      ∈ windowList (pushList buffer_init l) := by
  obtain ⟨hcnt, havg, hminmem, hminle, hmaxmem, hmaxle⟩ := stats_spec_nonempty l h
  have hwin : windowList (pushList buffer_init l) = retained l := (pushList_spec l).2.2
  have hlenpos : 0 < (retained l).length := List.length_pos.mpr (retained_ne_nil l h)
  have hlenposQ : (0 : ℚ) < ((retained l).length : ℚ) := by exact_mod_cast hlenpos
  refine ⟨?_, ?_, ?_, ?_⟩
  · rw [havg, le_div_iff₀ hlenposQ]
    exact mul_length_le_sum (retained l) _ hminle
  · rw [havg, div_le_iff₀ hlenposQ]
    exact sum_le_mul_length (retained l) _ hmaxle
  · rw [hwin]
    exact hminmem
  · rw [hwin]
    exact hmaxmem

theorem C10_witness :
    (buffer_compute_stats (pushList buffer_init [20, 25, 30])).minimum
      ≤ (buffer_compute_stats (pushList buffer_init [20, 25, 30])).avg :=
  (C10_min_avg_max [20, 25, 30] (by simp)).1

lemma ack_text_22_5 :
    ack_text 7 (45 / 2 : ℚ) = "ACK: received 22.500 from pid 7".toList := by
  have h : round ((45 / 2 : ℚ) * 1000) = (22500 : ℤ) := by
    rw [show ((45 / 2 : ℚ) * 1000) = ((22500 : ℤ) : ℚ) from by norm_num,
      round_intCast]
  simp only [ack_text, fmt_f3, h]
  decide

lemma reply_written_1e100 : reply_written 7 (10 ^ 100 : ℚ) = 130 := by
  have h : round ((10 ^ 100 : ℚ) * 1000) = (10 ^ 103 : ℤ) := by
    rw [show ((10 ^ 100 : ℚ) * 1000) = ((10 ^ 103 : ℤ) : ℚ) from by push_cast; ring,
      round_intCast]
  simp only [reply_written, ack_text, fmt_f3, h]
  decide

/-- C3, counterexample.  For the accepted reading (pid 7, temperature
10^100) the formatted text is 130 characters long: `snprintf` truncates
it and the 131-byte count handed to `MsgReply` overruns the buffer, so
the reply is not the pattern text.  The claim's universal quantification
over all temperature values fails. -/
theorem C3_counterexample :
    reply_sent 7 (10 ^ 100 : ℚ) ≠ some (ack_text 7 (10 ^ 100 : ℚ)) := by
  intro hc
  simp only [reply_sent, msg_reply_len, reply_written_1e100] at hc
  rw [if_neg (by decide)] at hc
  exact Option.noConfusion hc

/-- C3, amended.  For every accepted reading whose formatted
acknowledgment (plus terminating NUL) fits the 128-byte reply buffer,
the reply sent back is exactly the NUL-terminated text of the pattern
`ACK: received %.3f from pid %d` applied to the temperature and pid;
in particular, for producerId 7 and temperature 22.5 the reply text is
exactly `ACK: received 22.500 from pid 7`. -/
theorem C3_ack_format :
    (∀ (p : ℤ) (t : ℚ), msg_reply_len p t ≤ REPLY_BUF →
      reply_sent p t = some (ack_text p t)) ∧
    reply_sent 7 (45 / 2 : ℚ) = some ("ACK: received 22.500 from pid 7".toList) := by
  constructor
  · intro p t h
    have hlen : (ack_text p t).length ≤ REPLY_BUF - 1 := by
      simp only [msg_reply_len, reply_written, REPLY_BUF] at h ⊢
      omega
    simp only [reply_sent, reply_stored]
    rw [if_pos h, List.take_of_length_le hlen]
  · have hlen : msg_reply_len 7 (45 / 2 : ℚ) = 32 := by
      simp only [msg_reply_len, reply_written, ack_text_22_5]
      decide
    simp only [reply_sent, reply_stored, hlen, ack_text_22_5]
    rw [if_pos (by decide)]
    decide

theorem C3_witness :
    reply_sent 7 (45 / 2 : ℚ) = some (ack_text 7 (45 / 2 : ℚ)) :=
  C3_ack_format.1 7 (45 / 2) (by
    simp only [msg_reply_len, reply_written, ack_text_22_5]
    decide)

/-- C9.  Evidence for the code bug: at the accepted reading (pid 7,
temperature 10^100) the byte count the code passes to `MsgReply`
(`written + 1`, with `written` the untruncated length `snprintf`
returns) is 131, which exceeds the 128-byte reply buffer — `MsgReply`
reads past `reply_msg`, contradicting the documented max-128-byte reply
wire format. -/
theorem C9_reply_length_exceeds_buffer :
    REPLY_BUF < msg_reply_len 7 (10 ^ 100 : ℚ) := by
  simp only [msg_reply_len, reply_written_1e100]
  decide

/-- C5.  If one full publish period elapses during which no reading is
pushed (the buffer `b` is unchanged between the two cycles), the next
timer cycle writes the same average, minimum, maximum and count to the
shared region, while `last_updated` advances with the wall clock. -/
theorem C5_idle_publish_stable (b : circbuf_t) (t1 t2 : ℤ) (h : t1 < t2) :
    (timer_cycle b t2).avg = (timer_cycle b t1).avg ∧
    (timer_cycle b t2).minimum = (timer_cycle b t1).minimum ∧
    (timer_cycle b t2).maximum = (timer_cycle b t1).maximum ∧
    (timer_cycle b t2).count = (timer_cycle b t1).count ∧
    (timer_cycle b t1).last_updated < (timer_cycle b t2).last_updated :=
  ⟨rfl, rfl, rfl, rfl, h⟩

theorem C5_witness :
    (timer_cycle buffer_init 0).last_updated
      < (timer_cycle buffer_init 1).last_updated :=
  (C5_idle_publish_stable buffer_init 0 1 (by decide)).2.2.2.2

/-- C6.  The listener's per-reading opportunistic update of the shared
region modifies only the freshness timestamp: average, minimum, maximum
and count are left unchanged. -/
theorem C6_touch_only_timestamp (s : shared_stats_t) (now : ℤ) :
    (touch_last_updated s now).avg = s.avg ∧
    (touch_last_updated s now).minimum = s.minimum ∧
    (touch_last_updated s now).maximum = s.maximum ∧
    (touch_last_updated s now).count = s.count ∧
    (touch_last_updated s now).last_updated = now :=
  ⟨rfl, rfl, rfl, rfl, rfl⟩

/-- C7.  In the effect order of an accepted-reading iteration, every
occurrence of the reply is preceded by the push of the reading's
temperature: no execution of the loop body replies before the push has
taken effect. -/
theorem C7_push_before_reply (p : ℤ) (t : ℚ) (j : ℕ)
    (h : (iteration_events p t)[j]? = some (ServerEvent.reply p t)) :
    ∃ i, i < j ∧ (iteration_events p t)[i]? = some (ServerEvent.push t) := by
  rcases j with _ | _ | _ | k
  · simp [iteration_events] at h
  · simp [iteration_events] at h
  · exact ⟨0, by omega, rfl⟩
  · simp [iteration_events] at h

theorem C7_witness :
    ∃ i, i < 2 ∧ (iteration_events 7 1)[i]? = some (ServerEvent.push 1) :=
  C7_push_before_reply 7 1 2 rfl

/-- C8.  When the blocking receive fails (`MsgReceive` returns `-1`), the
loop iteration leaves the buffer and the shared region untouched, issues
no reply, and the loop continues — the listener never terminates the
channel on such a failure. -/
theorem C8_receive_failure_no_effect (b : circbuf_t) (s : shared_stats_t) (now : ℤ) :
    listener_iteration b s none now = (b, s, none, true) :=
  rfl

end TempServer
